import Mathlib

/-!
Verification development for cursetool-rs.

Shallow embedding of the persistent HTTP response cache (`src/database.rs`)
and of the rate-limited, cache-aware fetch layer (`src/downloader.rs`).
Wall-clock instants are modelled as whole seconds since the Unix epoch
(`Nat`), matching the `downloaded INTEGER` column and the `as_secs`
conversions in the source.
-/

/-- A row of the `curse_queries` SQLite table, created by `setup` in
`src/database.rs`: `url TEXT PRIMARY KEY, result STRING NOT NULL,
downloaded INTEGER NOT NULL`, where `downloaded` is whole seconds since
the Unix epoch. -/
structure Row where
  url : String
  result : String
  downloaded : Nat
deriving DecidableEq

/-- Model of `anyhow::Error` values as they arise in the embedded code:
`net` injects an underlying transport error (abstract type `ε`),
`sysTime` is the `SystemTimeError` from `duration_since(UNIX_EPOCH)?`,
`message` is an error created by `anyhow::bail!` or by `context` on an
`Option`, and `context` wraps an existing error with a message. -/
inductive AErr (ε : Type) where
  | net (e : ε)
  | sysTime
  | message (s : String)
  | context (msg : String) (e : AErr ε)
deriving DecidableEq

/-- Result of one `Database::get_or_put` call: the returned
`Result<String>`, the table contents afterwards, and how many times the
`downloader` closure was invoked (an observable of the run, 0 or 1). -/
structure GopResult (ε : Type) where
  result : Except (AErr ε) String
  table : List Row
  computeCalls : Nat

/-- The `SELECT result FROM curse_queries WHERE url = ? AND downloaded > ?`
query followed by reading the first returned row, as in
`Database::get_or_put`. -/
def freshHit (table : List Row) (url : String) (limit : Nat) : Option String :=
  (table.find? (fun r => r.url == url && decide (limit < r.downloaded))).map (fun r => r.result)

/-- The `INSERT OR REPLACE INTO curse_queries(url, result, downloaded)` statement:
with `url` the primary key, any conflicting row is deleted and the new
row inserted. -/
def insertOrReplace (table : List Row) (r : Row) : List Row :=
  table.filter (fun q => !(q.url == r.url)) ++ [r]

/-- Model of `Database::get_or_put` (src/database.rs lines 56-85).
`tRead` is the value of the `SystemTime::now()` call used to compute
`valid_from`; `tMiss` is the value of the second `SystemTime::now()`
call (`downloaded_at`), taken on the miss path after reacquiring the
connection lock and before invoking `downloader`.  When
`lifetime > tRead` the cutoff `now - lifetime` precedes the epoch and
`valid_from.duration_since(UNIX_EPOCH)?` fails, which the source
propagates as an error before consulting the cache.  On a miss the
`downloader` result is propagated unchanged on failure, and on success
the pair is upserted with timestamp `tMiss`. -/
def get_or_put (table : List Row) (url : String) (lifetime tRead tMiss : Nat)
    (downloader : Except (AErr ε) String) : GopResult ε :=
  if lifetime > tRead then
    { result := .error .sysTime, table := table, computeCalls := 0 }
  else
    match freshHit table url (tRead - lifetime) with
    | some payload => { result := .ok payload, table := table, computeCalls := 0 }
    | none =>
      match downloader with
      | .error e => { result := .error e, table := table, computeCalls := 1 }
      | .ok v =>
        { result := .ok v
          table := insertOrReplace table { url := url, result := v, downloaded := tMiss }
          computeCalls := 1 }

/-- The row the store currently holds for a key, if any. -/
def rowFor (table : List Row) (url : String) : Option Row :=
  table.find? (fun r => r.url == url)

/-- The store invariant guaranteed by the `url TEXT PRIMARY KEY` column:
at most one row per key. -/
def uniqueKeys (table : List Row) : Prop :=
  table.Pairwise (fun a b => a.url ≠ b.url)

/-- The arguments of one `get_or_put` call, used to talk about arbitrary
sequences of store operations. -/
structure GopCall (ε : Type) where
  url : String
  lifetime : Nat
  tRead : Nat
  tMiss : Nat
  downloader : Except (AErr ε) String

/-- Run a sequence of `get_or_put` calls against the store, keeping only
the evolving table. -/
def runCalls (table : List Row) (ops : List (GopCall ε)) : List Row :=
  ops.foldl (fun t op => (get_or_put t op.url op.lifetime op.tRead op.tMiss op.downloader).table) table

/-! ### Store lemmas -/

theorem find?_conj_of_rowFor {table : List Row} {url : String} {limit : Nat} {row : Row}
    (h : rowFor table url = some row) (hf : limit < row.downloaded) :
    table.find? (fun r => r.url == url && decide (limit < r.downloaded)) = some row := by
  induction table with
  | nil => simp [rowFor] at h
  | cons a t ih =>
    by_cases ha : (a.url == url) = true
    · rw [rowFor, List.find?_cons_of_pos (p := fun r => r.url == url) t ha] at h
      cases h
      rw [List.find?_cons_of_pos (p := fun r => r.url == url && decide (limit < r.downloaded)) t
        (by simp [ha, hf])]
    · rw [rowFor, List.find?_cons_of_neg (p := fun r => r.url == url) t ha] at h
      rw [List.find?_cons_of_neg (p := fun r => r.url == url && decide (limit < r.downloaded)) t
        (by simp [ha])]
      exact ih h

theorem freshHit_of_rowFor {table : List Row} {url : String} {limit : Nat} {row : Row}
    (h : rowFor table url = some row) (hf : limit < row.downloaded) :
    freshHit table url limit = some row.result := by
  rw [freshHit, find?_conj_of_rowFor h hf, Option.map_some']

theorem freshHit_of_rowFor_none {table : List Row} {url : String} {limit : Nat}
    (h : rowFor table url = none) :
    freshHit table url limit = none := by
  rw [rowFor, List.find?_eq_none] at h
  rw [freshHit, Option.map_eq_none', List.find?_eq_none]
  intro x hx
  simp only [Bool.and_eq_true, decide_eq_true_eq, not_and]
  intro hurl
  exact absurd hurl (h x hx)

theorem freshHit_of_stale {table : List Row} {url : String} {limit : Nat} {row : Row}
    (hu : uniqueKeys table) (h : rowFor table url = some row)
    (hs : row.downloaded ≤ limit) :
    freshHit table url limit = none := by
  induction table with
  | nil => simp [rowFor] at h
  | cons a t ih =>
    by_cases ha : (a.url == url) = true
    · rw [rowFor, List.find?_cons_of_pos (p := fun r => r.url == url) t ha] at h
      cases h
      rw [freshHit, Option.map_eq_none', List.find?_eq_none]
      intro x hx
      simp only [Bool.and_eq_true, decide_eq_true_eq, not_and, not_lt]
      intro hurl
      rcases List.mem_cons.mp hx with rfl | hxt
      · exact hs
      · have h1 : row.url ≠ x.url := List.rel_of_pairwise_cons hu hxt
        have h2 : row.url = url := by simpa using ha
        have h3 : x.url = url := by simpa using hurl
        exact absurd (h2.trans h3.symm) h1
    · rw [rowFor, List.find?_cons_of_neg (p := fun r => r.url == url) t ha] at h
      have ht := ih (List.Pairwise.of_cons hu) h
      rw [freshHit, Option.map_eq_none', List.find?_eq_none] at ht ⊢
      intro x hx
      rcases List.mem_cons.mp hx with rfl | hxt
      · simp [ha]
      · exact ht x hxt

theorem freshHit_none_mono {table : List Row} {url : String} {limit limit' : Nat}
    (hle : limit ≤ limit') (h : freshHit table url limit = none) :
    freshHit table url limit' = none := by
  rw [freshHit, Option.map_eq_none', List.find?_eq_none] at h ⊢
  intro x hx
  have hx' := h x hx
  simp only [Bool.and_eq_true, decide_eq_true_eq, not_and, not_lt] at hx' ⊢
  intro hurl
  exact le_trans (hx' hurl) hle

theorem find?_append_none {l₁ l₂ : List α} {p : α → Bool}
    (h : l₁.find? p = none) : (l₁ ++ l₂).find? p = l₂.find? p := by
  induction l₁ with
  | nil => rfl
  | cons a t ih =>
    rw [List.find?_eq_none] at h
    have ha : ¬ p a = true := h a (List.mem_cons_self a t)
    rw [List.cons_append, List.find?_cons_of_neg _ ha]
    exact ih (List.find?_eq_none.mpr fun x hx => h x (List.mem_cons_of_mem _ hx))

theorem rowFor_insertOrReplace_self {table : List Row} {r : Row} {url : String}
    (h : r.url = url) :
    rowFor (insertOrReplace table r) url = some r := by
  rw [rowFor, insertOrReplace, find?_append_none, List.find?_cons_of_pos _ (by simp [h])]
  rw [List.find?_eq_none]
  intro x hx
  have hx2 := (List.mem_filter.mp hx).2
  simp only [Bool.not_eq_true', beq_eq_false_iff_ne, ne_eq] at hx2
  simp only [beq_iff_eq]
  rw [h] at hx2
  exact hx2

theorem filter_insertOrReplace {table : List Row} {r : Row} {url : String}
    (h : r.url = url) :
    (insertOrReplace table r).filter (fun q => q.url == url) = [r] := by
  rw [insertOrReplace, List.filter_append]
  have h1 : List.filter (fun q => q.url == url) (table.filter (fun q => !(q.url == r.url))) = [] := by
    rw [List.filter_filter, List.filter_eq_nil_iff]
    intro x _
    subst h
    cases hx : x.url == r.url <;> simp [hx]
  rw [h1, List.nil_append, List.filter_cons, if_pos (by simp [h]), List.filter_nil]

theorem uniqueKeys_insertOrReplace {table : List Row} {r : Row}
    (h : uniqueKeys table) : uniqueKeys (insertOrReplace table r) := by
  rw [uniqueKeys, insertOrReplace, List.pairwise_append]
  refine ⟨List.Pairwise.filter _ h, List.pairwise_singleton _ _, ?_⟩
  intro x hx y hy
  have hx2 := (List.mem_filter.mp hx).2
  simp only [Bool.not_eq_true', beq_eq_false_iff_ne, ne_eq] at hx2
  rcases List.mem_singleton.mp hy with rfl
  exact hx2

theorem uniqueKeys_get_or_put {table : List Row} {url : String} {lifetime tRead tMiss : Nat}
    {downloader : Except (AErr ε) String} (h : uniqueKeys table) :
    uniqueKeys (get_or_put table url lifetime tRead tMiss downloader).table := by
  unfold get_or_put
  split
  · exact h
  · split
    · exact h
    · match downloader with
      | .error e => exact h
      | .ok v => exact uniqueKeys_insertOrReplace h

theorem uniqueKeys_runCalls {table : List Row} {ops : List (GopCall ε)}
    (h : uniqueKeys table) : uniqueKeys (runCalls table ops) := by
  induction ops generalizing table with
  | nil => exact h
  | cons op t ih => exact ih (uniqueKeys_get_or_put h)

/-! ### Event traces

`get_or_put` and the fetch-layer compute closures are also modelled as the
sequence of lock, query, compute and network events they perform, to state
the locking and rate-limiting claims. -/

/-- Lock, query, compute and write events of one `Database::get_or_put`
call, in program order. -/
inductive DbEvent where
  | lockAcquire
  | lockRelease
  | select (url : String)
  | compute
  | insertRow (r : Row)
deriving DecidableEq

/-- The event trace of `Database::get_or_put` (src/database.rs lines
56-85): the connection `Mutex` is locked around the `SELECT`; on a miss
it is locked a second time at line 77, and `downloader()` runs at line 79
with that lock still held, followed by the `INSERT OR REPLACE` (on
success) and the release when `conn` is dropped. -/
def getOrPutEvents (table : List Row) (url : String) (lifetime tRead tMiss : Nat)
    (downloader : Except (AErr ε) String) : List DbEvent :=
  if lifetime > tRead then [.lockAcquire, .lockRelease]
  else
    match freshHit table url (tRead - lifetime) with
    | some _ => [.lockAcquire, .select url, .lockRelease]
    | none =>
      [.lockAcquire, .select url, .lockRelease, .lockAcquire, .compute] ++
        (match downloader with
         | .error _ => [.lockRelease]
         | .ok v => [.insertRow { url := url, result := v, downloaded := tMiss }, .lockRelease])

/-- The store-lock depth at each `compute` event of a trace, given the
starting depth. -/
def computeDepths : List DbEvent → Nat → List Nat
  | [], _ => []
  | .lockAcquire :: r, d => computeDepths r (d + 1)
  | .lockRelease :: r, d => computeDepths r (d - 1)
  | .compute :: r, d => d :: computeDepths r d
  | .select _ :: r, d => computeDepths r d
  | .insertRow _ :: r, d => computeDepths r d

/-- True iff every `compute` event of the trace happens with the
store-wide lock not held. -/
def computeOutsideLock (evs : List DbEvent) : Bool :=
  (computeDepths evs 0).all (fun d => d == 0)

/-- Events of a fetch-layer compute closure: acquiring and releasing the
`rate_limiter` mutex and performing an outbound origin request. -/
inductive NetEvent where
  | gateAcquire
  | gateRelease
  | call (url : String)
deriving DecidableEq

/-- The compute closure passed to `get_or_put` by
`Downloader::get_with_builder` (src/downloader.rs lines 139-143): it
locks `rate_limiter`, executes the request, and drops the guard. -/
def getWithBuilderComputeEvents (url : String) : List NetEvent :=
  [.gateAcquire, .call url, .gateRelease]

/-- The compute closure inside `Downloader::request_mod_file_info`
(src/downloader.rs lines 40-53): it calls `reqwest::blocking::get` on
the download URL directly; `rate_limiter` is never touched. -/
def requestModFileInfoComputeEvents (url : String) : List NetEvent :=
  [.call url]

/-- Helper for `allCallsGated`: folds the gate state over the trace. -/
def gatedFrom : List NetEvent → Bool → Bool
  | [], _ => true
  | .gateAcquire :: r, _ => gatedFrom r true
  | .gateRelease :: r, _ => gatedFrom r false
  | .call _ :: r, held => held && gatedFrom r held

/-- True iff every origin request in the trace is performed while the
rate-limiter gate is held. -/
def allCallsGated (evs : List NetEvent) : Bool :=
  gatedFrom evs false

/-! ### Cache store claims -/

/-- C1 (Freshness): if the store holds an entry for the key whose
`fetched_at` is within the TTL of the read instant (`tRead < t0 + T`,
i.e. `t1 - t0 < T` at seconds resolution), `get_or_put` returns that
entry's payload, never invokes the compute closure, and leaves the store
unchanged.  (`lifetime ≤ tRead` states that the staleness cutoff does
not precede the Unix epoch.) -/
theorem freshness_cache_hit {ε : Type} (table : List Row) (url : String)
    (lifetime tRead tMiss : Nat) (downloader : Except (AErr ε) String) (row : Row)
    (hT : lifetime ≤ tRead)
    (hrow : rowFor table url = some row)
    (hfresh : tRead < row.downloaded + lifetime) :
    (get_or_put table url lifetime tRead tMiss downloader).result = .ok row.result ∧
    (get_or_put table url lifetime tRead tMiss downloader).computeCalls = 0 ∧
    (get_or_put table url lifetime tRead tMiss downloader).table = table := by
  have hlim : tRead - lifetime < row.downloaded := by omega
  have hh := freshHit_of_rowFor hrow hlim
  unfold get_or_put
  rw [if_neg (by omega), hh]
  exact ⟨rfl, rfl, rfl⟩

theorem freshness_cache_hit_witness :
    (get_or_put (ε := Unit) [{ url := "k", result := "v", downloaded := 100 }] "k" 50 120 130
      (.ok "w")).result = .ok "v" ∧
    (get_or_put (ε := Unit) [{ url := "k", result := "v", downloaded := 100 }] "k" 50 120 130
      (.ok "w")).computeCalls = 0 ∧
    (get_or_put (ε := Unit) [{ url := "k", result := "v", downloaded := 100 }] "k" 50 120 130
      (.ok "w")).table = [{ url := "k", result := "v", downloaded := 100 }] :=
  freshness_cache_hit _ _ _ _ _ _ { url := "k", result := "v", downloaded := 100 }
    (by decide) (by decide) (by decide)

/-- C2 (Staleness): on a miss (no entry, or an entry at least TTL old),
`get_or_put` invokes the compute closure exactly once; if it succeeds
with `v`, the call returns `v` and the store afterwards maps the key to
`v` with `fetched_at = tMiss`, the wall clock read during the call
(`tRead ≤ tMiss`). -/
theorem staleness_recompute {ε : Type} (table : List Row) (url : String)
    (lifetime tRead tMiss : Nat) (downloader : Except (AErr ε) String) (v : String)
    (hu : uniqueKeys table)
    (hT : lifetime ≤ tRead)
    (_hTm : tRead ≤ tMiss)
    (hmiss : rowFor table url = none ∨
      ∃ row, rowFor table url = some row ∧ row.downloaded + lifetime ≤ tRead) :
    (get_or_put table url lifetime tRead tMiss downloader).computeCalls = 1 ∧
    (downloader = .ok v →
      (get_or_put table url lifetime tRead tMiss downloader).result = .ok v ∧
      rowFor (get_or_put table url lifetime tRead tMiss downloader).table url =
        some { url := url, result := v, downloaded := tMiss }) := by
  have hfh : freshHit table url (tRead - lifetime) = none := by
    rcases hmiss with h | ⟨row, hrow, hstale⟩
    · exact freshHit_of_rowFor_none h
    · exact freshHit_of_stale hu hrow (by omega)
  unfold get_or_put
  rw [if_neg (by omega), hfh]
  match downloader with
  | .error e =>
    refine ⟨rfl, fun h => ?_⟩
    exact absurd h (by simp)
  | .ok w =>
    refine ⟨rfl, fun h => ?_⟩
    cases h
    exact ⟨rfl, rowFor_insertOrReplace_self rfl⟩

theorem staleness_recompute_witness :
    (get_or_put (ε := Unit) [{ url := "k", result := "old", downloaded := 100 }] "k" 50 200 201
      (.ok "new")).computeCalls = 1 ∧
    ((.ok "new" : Except (AErr Unit) String) = .ok "new" →
      (get_or_put (ε := Unit) [{ url := "k", result := "old", downloaded := 100 }] "k" 50 200 201
        (.ok "new")).result = .ok "new" ∧
      rowFor (get_or_put (ε := Unit) [{ url := "k", result := "old", downloaded := 100 }] "k"
          50 200 201 (.ok "new")).table "k" =
        some { url := "k", result := "new", downloaded := 201 }) :=
  staleness_recompute [{ url := "k", result := "old", downloaded := 100 }] "k" 50 200 201
    (.ok "new") "new"
    (by simp [uniqueKeys])
    (by decide) (by decide)
    (Or.inr ⟨{ url := "k", result := "old", downloaded := 100 }, by decide, by decide⟩)

/-- C3 (Compute-failure atomicity): on the cache-miss path a failing
compute closure has its error returned verbatim, nothing is written, and
a later call for the same key and TTL (at a no-earlier read instant)
again invokes its compute closure. -/
theorem compute_failure_atomic {ε : Type} (table : List Row) (url : String)
    (lifetime tRead tMiss : Nat) (e : AErr ε)
    (tRead2 tMiss2 : Nat) (downloader2 : Except (AErr ε) String)
    (hT : lifetime ≤ tRead)
    (hmiss : freshHit table url (tRead - lifetime) = none)
    (hT2 : tRead ≤ tRead2) :
    (get_or_put table url lifetime tRead tMiss (.error e)).result = .error e ∧
    (get_or_put table url lifetime tRead tMiss (.error e)).table = table ∧
    (get_or_put table url lifetime tRead tMiss (.error e)).computeCalls = 1 ∧
    (get_or_put table url lifetime tRead2 tMiss2 downloader2).computeCalls = 1 := by
  have hmiss2 : freshHit table url (tRead2 - lifetime) = none :=
    freshHit_none_mono (by omega) hmiss
  refine ⟨?_, ?_, ?_, ?_⟩
  · unfold get_or_put; rw [if_neg (by omega), hmiss]
  · unfold get_or_put; rw [if_neg (by omega), hmiss]
  · unfold get_or_put; rw [if_neg (by omega), hmiss]
  · unfold get_or_put
    rw [if_neg (by omega), hmiss2]
    match downloader2 with
    | .error e2 => rfl
    | .ok w => rfl

theorem compute_failure_atomic_witness :
    (get_or_put (ε := Unit) [] "k" 10 50 51 (.error (.message "boom"))).result =
      .error (.message "boom") ∧
    (get_or_put (ε := Unit) [] "k" 10 50 51 (.error (.message "boom"))).table = [] ∧
    (get_or_put (ε := Unit) [] "k" 10 50 51 (.error (.message "boom"))).computeCalls = 1 ∧
    (get_or_put (ε := Unit) [] "k" 10 60 61 (.ok "v")).computeCalls = 1 :=
  compute_failure_atomic [] "k" 10 50 51 (.message "boom") 60 61 (.ok "v")
    (by decide) (by decide) (by decide)

/-- C5 (Store invariant): any sequence of `get_or_put` calls preserves
at-most-one-row-per-key, and a successful cache-miss write (a call whose
compute closure ran, `computeCalls = 1`, and returned `Ok v`) leaves
exactly one row for the key, carrying the new payload and timestamp. -/
theorem upsert_unique_replace {ε : Type} (table : List Row) (ops : List (GopCall ε))
    (url : String) (lifetime tRead tMiss : Nat) (v : String)
    (hu : uniqueKeys table)
    (hcalls : (get_or_put table url lifetime tRead tMiss
      (Except.ok v : Except (AErr ε) String)).computeCalls = 1) :
    uniqueKeys (runCalls table ops) ∧
    (get_or_put table url lifetime tRead tMiss
      (Except.ok v : Except (AErr ε) String)).table.filter
      (fun q => q.url == url) = [{ url := url, result := v, downloaded := tMiss }] := by
  refine ⟨uniqueKeys_runCalls hu, ?_⟩
  unfold get_or_put at hcalls ⊢
  by_cases hif : lifetime > tRead
  · rw [if_pos hif] at hcalls
    exact absurd hcalls (by simp)
  · rw [if_neg hif] at hcalls ⊢
    cases hfh : freshHit table url (tRead - lifetime) with
    | some payload =>
      rw [hfh] at hcalls
      exact absurd hcalls (by simp)
    | none =>
      exact filter_insertOrReplace rfl

theorem upsert_unique_replace_witness :
    uniqueKeys (runCalls [{ url := "k", result := "v", downloaded := 5 }]
      [{ url := "k", lifetime := 1, tRead := 100, tMiss := 101,
         downloader := (.ok "w" : Except (AErr Unit) String) }]) ∧
    (get_or_put (ε := Unit) [{ url := "k", result := "v", downloaded := 5 }] "k" 1 100 101
      (.ok "w")).table.filter (fun q => q.url == "k") =
      [{ url := "k", result := "w", downloaded := 101 }] :=
  upsert_unique_replace [{ url := "k", result := "v", downloaded := 5 }] _ "k" 1 100 101 "w"
    (by simp [uniqueKeys]) (by decide)

/-- C4 as stated, formalized.  On the miss path the source reads the
clock a second time (`tStart`, the `downloaded_at` of line 78) and then
invokes the compute closure, which takes some wall-clock time `d ≥ 0`
and hence completes at `tStart + d`.  The claim asserts that for every
successful cache-miss run the stored `fetched_at` is that completion
time. -/
def fetchedAtIsComputeCompletion : Prop :=
  ∀ (table : List Row) (url : String) (lifetime tRead tStart d : Nat) (v : String),
    lifetime ≤ tRead →
    freshHit table url (tRead - lifetime) = none →
    rowFor (get_or_put (ε := Unit) table url lifetime tRead tStart (.ok v)).table url =
      some { url := url, result := v, downloaded := tStart + d }

/-- C4 counterexample: a miss detected at `tRead = 0` whose compute
starts at `tStart = 5` and takes `d = 1` second (completing at 6) stores
`fetched_at = 5`, the compute start time, not the completion time 6. -/
theorem fetched_at_not_completion : ¬ fetchedAtIsComputeCompletion := by
  intro h
  have h1 := h [] "k" 0 0 5 1 "v" (le_refl 0) rfl
  have h2 : rowFor (get_or_put (ε := Unit) [] "k" 0 0 5 (.ok "v")).table "k" =
      some { url := "k", result := "v", downloaded := 5 } := rfl
  rw [h2] at h1
  simp at h1

/-- C4 amended: on a successful cache-miss run the stored `fetched_at`
is `tMiss`, the wall clock read at line 78 after the miss is detected
and the store lock reacquired, immediately before the compute closure is
invoked — not the time at which compute completes. -/
theorem fetched_at_is_compute_start {ε : Type} (table : List Row) (url : String)
    (lifetime tRead tMiss : Nat) (v : String)
    (hT : lifetime ≤ tRead)
    (hmiss : freshHit table url (tRead - lifetime) = none) :
    rowFor (get_or_put table url lifetime tRead tMiss
      (Except.ok v : Except (AErr ε) String)).table url =
      some { url := url, result := v, downloaded := tMiss } := by
  unfold get_or_put
  rw [if_neg (by omega), hmiss]
  exact rowFor_insertOrReplace_self rfl

theorem fetched_at_is_compute_start_witness :
    rowFor (get_or_put [] "k" 10 50 55 (Except.ok "v" : Except (AErr Unit) String)).table "k" =
      some { url := "k", result := "v", downloaded := 55 } :=
  fetched_at_is_compute_start [] "k" 10 50 55 "v" (by decide) (by decide)

/-- C7 counterexample: on a concrete cache-miss run of `get_or_put` the
`compute` event happens at store-lock depth 1 — `downloader()` is called
at line 79 while the `Mutex<Connection>` taken at line 77 is still held
— so "compute is invoked outside any lock" is false on the code. -/
theorem compute_not_outside_lock :
    computeOutsideLock
      (getOrPutEvents [] "k" 0 0 0 (Except.ok "v" : Except (AErr Unit) String)) = false := rfl

/-- C7 amended: on every cache-miss run the compute closure is invoked
exactly once, and with the store-wide connection lock held (depth 1):
the second exclusive section spans the timestamp capture, the compute
call and the write, so a hung compute blocks every other `get_or_put`
caller, not only its own key. -/
theorem compute_under_store_lock {ε : Type} (table : List Row) (url : String)
    (lifetime tRead tMiss : Nat) (downloader : Except (AErr ε) String)
    (hT : lifetime ≤ tRead)
    (hmiss : freshHit table url (tRead - lifetime) = none) :
    computeDepths (getOrPutEvents table url lifetime tRead tMiss downloader) 0 = [1] := by
  unfold getOrPutEvents
  rw [if_neg (by omega), hmiss]
  match downloader with
  | .error e => rfl
  | .ok v => rfl

theorem compute_under_store_lock_witness :
    computeDepths
      (getOrPutEvents [] "k" 10 50 55 (Except.ok "v" : Except (AErr Unit) String)) 0 = [1] :=
  compute_under_store_lock [] "k" 10 50 55 (.ok "v") (by decide) (by decide)

/-- C6 counterexample: the compute closure of
`Downloader::request_mod_file_info` performs its origin request (the
binary download) without holding the rate-limiter gate, so "every
outbound origin network call ... is executed while holding the single
shared rate-limiter gate" is false on the code. -/
theorem binary_download_not_gated :
    allCallsGated
      (requestModFileInfoComputeEvents "https://media.forgecdn.net/files/1/2/a.jar") = false := rfl

/-- C6 amended: origin requests made through
`Downloader::get_with_builder` (addon metadata, file listings, search)
are executed while holding the rate-limiter gate; the binary download in
`request_mod_file_info`'s compute closure is performed without acquiring
the gate; and a cache hit never runs a compute closure at all, so it
never touches the gate. -/
theorem rate_gate_amended {ε : Type} (url hitUrl : String) (table : List Row)
    (lifetime tRead tMiss : Nat) (downloader : Except (AErr ε) String) (row : Row)
    (hT : lifetime ≤ tRead)
    (hrow : rowFor table hitUrl = some row)
    (hfresh : tRead < row.downloaded + lifetime) :
    allCallsGated (getWithBuilderComputeEvents url) = true ∧
    allCallsGated (requestModFileInfoComputeEvents url) = false ∧
    (get_or_put table hitUrl lifetime tRead tMiss downloader).computeCalls = 0 := by
  refine ⟨rfl, rfl, ?_⟩
  have hlim : tRead - lifetime < row.downloaded := by omega
  unfold get_or_put
  rw [if_neg (by omega), freshHit_of_rowFor hrow hlim]

theorem rate_gate_amended_witness :
    allCallsGated (getWithBuilderComputeEvents "https://api.curseforge.com/v1/mods/7") = true ∧
    allCallsGated (requestModFileInfoComputeEvents "https://api.curseforge.com/v1/mods/7") = false ∧
    (get_or_put [{ url := "k", result := "v", downloaded := 100 }] "k" 50 120 130
      (Except.ok "w" : Except (AErr Unit) String)).computeCalls = 0 :=
  rate_gate_amended "https://api.curseforge.com/v1/mods/7" "k"
    [{ url := "k", result := "v", downloaded := 100 }] 50 120 130 (.ok "w")
    { url := "k", result := "v", downloaded := 100 } (by decide) (by decide) (by decide)

/-! ### URL model

Model of the `url::Url` values used by `src/downloader.rs` (the `url`
crate is an external dependency; it is modelled here for URLs of the
shape `scheme://host/path` without query, fragment, port or userinfo —
the only shape the fetch layer manipulates — and `parseUrl` returns
`none` outside this fragment). -/

/-- Split a character list at every `'/'`, like `Url::path_segments`
applied to the path after its leading slash.  Always returns at least
one (possibly empty) piece. -/
def splitSlash : List Char → List (List Char)
  | [] => [[]]
  | c :: rest =>
    if c = '/' then [] :: splitSlash rest
    else
      match splitSlash rest with
      | [] => [[c]]
      | s :: ss => (c :: s) :: ss

/-- Rejoin path segments with `'/'` separators. -/
def joinSlash : List (List Char) → List Char
  | [] => []
  | [s] => s
  | s :: ss => s ++ '/' :: joinSlash ss

/-- The path segments of a path part: an empty path is normalized to the
single empty segment (the `url` crate renders it as `/`), otherwise the
leading `'/'` is dropped and the remainder split at `'/'`. -/
def pathSegments : List Char → List (List Char)
  | [] => [[]]
  | _ :: rest => splitSlash rest

/-- A parsed `url::Url` restricted to the modelled fragment. -/
structure UrlM where
  scheme : List Char
  host : List Char
  segments : List (List Char)
deriving DecidableEq

/-- Characters admissible in a URL scheme. -/
def isSchemeChar (c : Char) : Bool :=
  c.isAlphanum || c = '+' || c = '-' || c = '.'

/-- Model of `Url::parse`, for `scheme://host/path` URLs without query,
fragment, port or userinfo. -/
def parseUrl (s : List Char) : Option UrlM :=
  if '?' ∈ s ∨ '#' ∈ s then none
  else
    let scheme := s.takeWhile (fun c => c ≠ ':')
    let rest1 := s.drop scheme.length
    if scheme.isEmpty then none
    else if scheme.all isSchemeChar then
      if rest1.take 3 = [':', '/', '/'] then
        let rest := rest1.drop 3
        let host := rest.takeWhile (fun c => c ≠ '/')
        if host.isEmpty then none
        else if ':' ∈ host then none
        else some { scheme := scheme, host := host,
                    segments := pathSegments (rest.dropWhile (fun c => c ≠ '/')) }
      else none
    else none

/-- Model of `Url::as_str` and `Url::to_string`: the serialization, with the path
always rendered with a leading slash. -/
def urlToString (u : UrlM) : List Char :=
  u.scheme ++ ':' :: '/' :: '/' :: (u.host ++ '/' :: joinSlash u.segments)

/-! ### splitSlash / joinSlash lemmas -/

theorem splitSlash_ne_nil (l : List Char) : splitSlash l ≠ [] := by
  match l with
  | [] => simp [splitSlash]
  | c :: rest =>
    unfold splitSlash
    by_cases h : c = '/'
    · simp [h]
    · rw [if_neg h]
      cases splitSlash rest <;> simp

theorem joinSlash_splitSlash (l : List Char) : joinSlash (splitSlash l) = l := by
  induction l with
  | nil => rfl
  | cons c rest ih =>
    unfold splitSlash
    by_cases h : c = '/'
    · rw [if_pos h]
      subst h
      cases hs : splitSlash rest with
      | nil => exact absurd hs (splitSlash_ne_nil rest)
      | cons s ss =>
        rw [hs] at ih
        show [] ++ '/' :: joinSlash (s :: ss) = '/' :: rest
        rw [List.nil_append, ih]
    · rw [if_neg h]
      cases hs : splitSlash rest with
      | nil => exact absurd hs (splitSlash_ne_nil rest)
      | cons s ss =>
        rw [hs] at ih
        cases ss with
        | nil =>
          show c :: s = c :: rest
          simp only [joinSlash] at ih
          rw [ih]
        | cons s2 ss2 =>
          show (c :: s) ++ '/' :: joinSlash (s2 :: ss2) = c :: rest
          simp only [joinSlash] at ih
          rw [List.cons_append, ih]

theorem splitSlash_no_slash {l : List Char} {p : List Char}
    (hp : p ∈ splitSlash l) : '/' ∉ p := by
  induction l generalizing p with
  | nil =>
    rw [splitSlash] at hp
    rcases List.mem_singleton.mp hp with rfl
    simp
  | cons c rest ih =>
    rw [splitSlash] at hp
    by_cases h : c = '/'
    · rw [if_pos h] at hp
      rcases List.mem_cons.mp hp with rfl | hmem
      · simp
      · exact ih hmem
    · rw [if_neg h] at hp
      cases hs : splitSlash rest with
      | nil => exact absurd hs (splitSlash_ne_nil rest)
      | cons s ss =>
        rw [hs] at hp
        rcases List.mem_cons.mp hp with rfl | hmem
        · intro hc
          rcases List.mem_cons.mp hc with hc1 | hc2
          · exact h hc1.symm
          · exact ih (hs ▸ List.mem_cons_self s ss) hc2
        · exact ih (hs ▸ List.mem_cons_of_mem s hmem)

theorem mem_of_mem_splitSlash {l p : List Char} {c : Char}
    (hp : p ∈ splitSlash l) (hc : c ∈ p) : c ∈ l := by
  induction l generalizing p with
  | nil =>
    rw [splitSlash] at hp
    rcases List.mem_singleton.mp hp with rfl
    exact absurd hc (List.not_mem_nil c)
  | cons d rest ih =>
    rw [splitSlash] at hp
    by_cases h : d = '/'
    · rw [if_pos h] at hp
      rcases List.mem_cons.mp hp with rfl | hmem
      · exact absurd hc (List.not_mem_nil c)
      · exact List.mem_cons_of_mem d (ih hmem hc)
    · rw [if_neg h] at hp
      cases hs : splitSlash rest with
      | nil => exact absurd hs (splitSlash_ne_nil rest)
      | cons s ss =>
        rw [hs] at hp
        rcases List.mem_cons.mp hp with rfl | hmem
        · rcases List.mem_cons.mp hc with rfl | hc2
          · exact List.mem_cons_self c rest
          · exact List.mem_cons_of_mem d (ih (hs ▸ List.mem_cons_self s ss) hc2)
        · exact List.mem_cons_of_mem d (ih (hs ▸ List.mem_cons_of_mem s hmem) hc)

theorem splitSlash_joinSlash {ss : List (List Char)}
    (hne : ss ≠ []) (hclean : ∀ p ∈ ss, '/' ∉ p) :
    splitSlash (joinSlash ss) = ss := by
  induction ss with
  | nil => exact absurd rfl hne
  | cons s tailss ih =>
    cases tailss with
    | nil =>
      rw [joinSlash]
      have hs : '/' ∉ s := hclean s (List.mem_cons_self s [])
      clear hne ih hclean
      induction s with
      | nil => rfl
      | cons c cs ihs =>
        rw [splitSlash, if_neg (by intro hcc; exact hs (hcc ▸ List.mem_cons_self c cs))]
        rw [ihs (fun hmem => hs (List.mem_cons_of_mem c hmem))]
    | cons s2 ss2 =>
      show splitSlash (s ++ '/' :: joinSlash (s2 :: ss2)) = s :: s2 :: ss2
      have hs : '/' ∉ s := hclean s (List.mem_cons_self s _)
      have ih2 := ih (by simp) (fun p hp => hclean p (List.mem_cons_of_mem s hp))
      clear hne ih hclean
      induction s with
      | nil =>
        rw [List.nil_append, splitSlash, if_pos rfl, ih2]
      | cons c cs ihs =>
        rw [List.cons_append, splitSlash,
          if_neg (by intro hcc; exact hs (hcc ▸ List.mem_cons_self c cs))]
        rw [ihs (fun hmem => hs (List.mem_cons_of_mem c hmem))]

theorem mem_joinSlash {ss : List (List Char)} {c : Char}
    (hc : c ∈ joinSlash ss) : c = '/' ∨ ∃ p ∈ ss, c ∈ p := by
  induction ss with
  | nil => exact absurd hc (List.not_mem_nil c)
  | cons s tailss ih =>
    cases tailss with
    | nil =>
      rw [joinSlash] at hc
      exact Or.inr ⟨s, List.mem_cons_self s [], hc⟩
    | cons s2 ss2 =>
      have hc2 : c ∈ s ++ '/' :: joinSlash (s2 :: ss2) := hc
      rcases List.mem_append.mp hc2 with h1 | h2
      · exact Or.inr ⟨s, List.mem_cons_self s _, h1⟩
      · rcases List.mem_cons.mp h2 with rfl | h3
        · exact Or.inl rfl
        · rcases ih h3 with h4 | ⟨p, hp, hcp⟩
          · exact Or.inl h4
          · exact Or.inr ⟨p, List.mem_cons_of_mem s hp, hcp⟩

theorem joinSlash_concat {ss : List (List Char)} (a : List Char) (hne : ss ≠ []) :
    joinSlash (ss ++ [a]) = joinSlash ss ++ '/' :: a := by
  induction ss with
  | nil => exact absurd rfl hne
  | cons s tailss ih =>
    cases tailss with
    | nil => rfl
    | cons s2 ss2 =>
      show s ++ '/' :: joinSlash ((s2 :: ss2) ++ [a]) =
        (s ++ '/' :: joinSlash (s2 :: ss2)) ++ '/' :: a
      rw [ih (by simp), List.append_assoc]
      rfl

theorem takeWhile_app_all {p : α → Bool} {l₁ l₂ : List α} (h : ∀ x ∈ l₁, p x) :
    (l₁ ++ l₂).takeWhile p = l₁ ++ l₂.takeWhile p := by
  induction l₁ with
  | nil => rfl
  | cons a t ih =>
    rw [List.cons_append, List.takeWhile_cons, if_pos (h a (List.mem_cons_self a t)),
      ih (fun x hx => h x (List.mem_cons_of_mem a hx)), List.cons_append]

theorem dropWhile_app_all {p : α → Bool} {l₁ l₂ : List α} (h : ∀ x ∈ l₁, p x) :
    (l₁ ++ l₂).dropWhile p = l₂.dropWhile p := by
  induction l₁ with
  | nil => rfl
  | cons a t ih =>
    rw [List.cons_append, List.dropWhile_cons, if_pos (h a (List.mem_cons_self a t)),
      ih (fun x hx => h x (List.mem_cons_of_mem a hx))]

theorem schemeChar_of_all {scheme : List Char} (h : scheme.all isSchemeChar = true)
    {c : Char} (hc : c ∈ scheme) : isSchemeChar c = true :=
  List.all_eq_true.mp h c hc

/-- Re-parsing a serialized URL from the modelled fragment recovers the
same `UrlM`. -/
theorem parseUrl_urlToString (scheme host : List Char) (segs : List (List Char))
    (hs1 : scheme ≠ []) (hs2 : scheme.all isSchemeChar = true)
    (hh1 : host ≠ []) (hh2 : ':' ∉ host) (hh3 : '/' ∉ host)
    (hh4 : '?' ∉ host) (hh5 : '#' ∉ host)
    (hg : ∀ p ∈ segs, '/' ∉ p ∧ '?' ∉ p ∧ '#' ∉ p)
    (hne : segs ≠ []) :
    parseUrl (urlToString ⟨scheme, host, segs⟩) = some ⟨scheme, host, segs⟩ := by
  have hschemeQ : '?' ∉ scheme := fun hmem =>
    absurd (schemeChar_of_all hs2 hmem) (by decide)
  have hschemeH : '#' ∉ scheme := fun hmem =>
    absurd (schemeChar_of_all hs2 hmem) (by decide)
  have hschemeC : ':' ∉ scheme := fun hmem =>
    absurd (schemeChar_of_all hs2 hmem) (by decide)
  have hschemeS : '/' ∉ scheme := fun hmem =>
    absurd (schemeChar_of_all hs2 hmem) (by decide)
  have hqn : ¬('?' ∈ urlToString ⟨scheme, host, segs⟩ ∨ '#' ∈ urlToString ⟨scheme, host, segs⟩) := by
    rintro (hmem | hmem) <;>
    · simp only [urlToString, List.mem_append, List.mem_cons] at hmem
      rcases hmem with h | h | h | h | h
      · first
        | exact hschemeQ h
        | exact hschemeH h
      · exact absurd h (by decide)
      · exact absurd h (by decide)
      · exact absurd h (by decide)
      · rcases h with h2 | h3 | h3
        · first
          | exact hh4 h2
          | exact hh5 h2
        · exact absurd h3 (by decide)
        · rcases mem_joinSlash h3 with h4 | ⟨p, hp, hcp⟩
          · exact absurd h4 (by decide)
          · first
            | exact (hg p hp).2.1 hcp
            | exact (hg p hp).2.2 hcp
  have hsplit : (urlToString ⟨scheme, host, segs⟩).takeWhile (fun c => c ≠ ':') = scheme := by
    show (scheme ++ ':' :: '/' :: '/' :: (host ++ '/' :: joinSlash segs)).takeWhile
      (fun c => c ≠ ':') = scheme
    rw [takeWhile_app_all (fun x hx => by
      simp only [ne_eq, decide_eq_true_eq]
      intro hcc
      exact hschemeC (hcc ▸ hx))]
    simp [List.takeWhile_cons]
  have hhost : (host ++ '/' :: joinSlash segs).takeWhile (fun c => c ≠ '/') = host := by
    rw [takeWhile_app_all (fun x hx => by
      simp only [ne_eq, decide_eq_true_eq]
      intro hcc
      exact hh3 (hcc ▸ hx))]
    simp [List.takeWhile_cons]
  have hhostd : (host ++ '/' :: joinSlash segs).dropWhile (fun c => c ≠ '/') =
      '/' :: joinSlash segs := by
    rw [dropWhile_app_all (fun x hx => by
      simp only [ne_eq, decide_eq_true_eq]
      intro hcc
      exact hh3 (hcc ▸ hx))]
    simp [List.dropWhile_cons]
  simp only [parseUrl]
  rw [if_neg hqn, hsplit]
  have hdrop : (urlToString ⟨scheme, host, segs⟩).drop scheme.length =
      ':' :: '/' :: '/' :: (host ++ '/' :: joinSlash segs) := by
    show (scheme ++ ':' :: '/' :: '/' :: (host ++ '/' :: joinSlash segs)).drop scheme.length = _
    exact List.drop_left scheme _
  rw [hdrop, if_neg (by simp [List.isEmpty_iff, hs1]), if_pos hs2,
    if_pos (show List.take 3 (':' :: '/' :: '/' :: (host ++ '/' :: joinSlash segs)) =
      [':', '/', '/'] from rfl)]
  rw [show List.drop 3 (':' :: '/' :: '/' :: (host ++ '/' :: joinSlash segs)) =
    host ++ '/' :: joinSlash segs from rfl]
  rw [hhost, hhostd, if_neg (by simp [List.isEmpty_iff, hh1]), if_neg hh2]
  rw [show pathSegments ('/' :: joinSlash segs) = splitSlash (joinSlash segs) from rfl,
    splitSlash_joinSlash hne (fun p hp => (hg p hp).1)]

/-- Cleanliness facts recovered from any successful `parseUrl`. -/
theorem parseUrl_clean {s : List Char} {u : UrlM} (h : parseUrl s = some u) :
    u.scheme ≠ [] ∧ u.scheme.all isSchemeChar = true ∧
    u.host ≠ [] ∧ ':' ∉ u.host ∧ '/' ∉ u.host ∧ '?' ∉ u.host ∧ '#' ∉ u.host ∧
    (∀ p ∈ u.segments, '/' ∉ p ∧ '?' ∉ p ∧ '#' ∉ p) ∧ u.segments ≠ [] := by
  simp only [parseUrl] at h
  split_ifs at h with h1 h2 h3 h4 h5 h6
  cases h
  have hmem_s : ∀ c : Char,
      c ∈ ((s.drop (s.takeWhile (fun c => c ≠ ':')).length).drop 3) → c ∈ s := fun c hc =>
    ((List.drop_sublist _ _).trans (List.drop_sublist _ _)).mem hc
  refine ⟨?_, h3, ?_, h6, ?_, ?_, ?_, ?_, ?_⟩
  · intro hcon
    exact h2 (by simp only [List.isEmpty_iff]; exact hcon)
  · intro hcon
    exact h5 (by simp only [List.isEmpty_iff]; exact hcon)
  · intro hcon
    have := List.mem_takeWhile_imp hcon
    simp at this
  · intro hcon
    exact h1 (Or.inl (hmem_s _ ((List.takeWhile_sublist _).mem hcon)))
  · intro hcon
    exact h1 (Or.inr (hmem_s _ ((List.takeWhile_sublist _).mem hcon)))
  · intro p hp
    cases hd : (((s.drop (s.takeWhile (fun c => c ≠ ':')).length).drop 3).dropWhile
        (fun c => c ≠ '/')) with
    | nil =>
      rw [hd] at hp
      rcases List.mem_singleton.mp hp with rfl
      exact ⟨by simp, by simp, by simp⟩
    | cons c t =>
      rw [hd] at hp
      have hpt : p ∈ splitSlash t := hp
      have hmem_t : ∀ x : Char, x ∈ t → x ∈ s := fun x hx =>
        hmem_s x ((List.dropWhile_sublist _).mem
          (hd ▸ List.mem_cons_of_mem c hx))
      refine ⟨splitSlash_no_slash hpt, ?_, ?_⟩
      · intro hcon
        exact h1 (Or.inl (hmem_t _ (mem_of_mem_splitSlash hpt hcon)))
      · intro hcon
        exact h1 (Or.inr (hmem_t _ (mem_of_mem_splitSlash hpt hcon)))
  · cases hd : (((s.drop (s.takeWhile (fun c => c ≠ ':')).length).drop 3).dropWhile
        (fun c => c ≠ '/')) with
    | nil => simp [pathSegments]
    | cons c t =>
      show splitSlash t ≠ []
      exact splitSlash_ne_nil t

theorem dropWhile_cons_head {p : α → Bool} {l : List α} {c : α} {t : List α}
    (h : l.dropWhile p = c :: t) : p c = false := by
  induction l with
  | nil => exact absurd h (by simp)
  | cons a l ih =>
    rw [List.dropWhile_cons] at h
    by_cases hp : p a = true
    · rw [if_pos hp] at h
      exact ih h
    · rw [if_neg hp] at h
      cases h
      exact Bool.not_eq_true _ ▸ hp

/-- A successfully parsed URL whose path holds at least two segments is
recovered verbatim by `urlToString` (paths cannot be empty in that
case, so no normalization happens). -/
theorem parseUrl_eq_toString {s : List Char} {u : UrlM} (h : parseUrl s = some u)
    (hlen : 2 ≤ u.segments.length) : s = urlToString u := by
  simp only [parseUrl] at h
  split_ifs at h with h1 h2 h3 h4 h5 h6
  cases h
  have hsplit := List.takeWhile_append_dropWhile (fun c => decide (c ≠ ':')) s
  have hdrop : s.drop (s.takeWhile (fun c => decide (c ≠ ':'))).length =
      s.dropWhile (fun c => decide (c ≠ ':')) := by
    have hdl := List.drop_left (s.takeWhile (fun c => decide (c ≠ ':')))
      (s.dropWhile (fun c => decide (c ≠ ':')))
    rw [hsplit] at hdl
    exact hdl
  have hD := List.take_append_drop 3 (s.dropWhile (fun c => decide (c ≠ ':')))
  rw [hdrop] at h4
  rw [h4] at hD
  have hrest := List.takeWhile_append_dropWhile (fun c => decide (c ≠ '/'))
    ((s.dropWhile (fun c => decide (c ≠ ':'))).drop 3)
  cases hpp : ((s.dropWhile (fun c => decide (c ≠ ':'))).drop 3).dropWhile
      (fun c => decide (c ≠ '/')) with
  | nil =>
    exfalso
    simp only [hdrop, hpp] at hlen
    simp [pathSegments] at hlen
  | cons c t =>
    have hc : c = '/' := by
      have := dropWhile_cons_head hpp
      simpa using this
    subst hc
    simp only [urlToString, hdrop, hpp]
    rw [show pathSegments ('/' :: t) = splitSlash t from rfl, joinSlash_splitSlash]
    conv_lhs => rw [← hsplit]
    congr 1
    conv_lhs => rw [← hD]
    simp only [List.cons_append, List.nil_append, List.cons.injEq, true_and]
    rw [← hpp]
    exact hrest.symm

/-! ### Fetch layer: request_mod_file_info (src/downloader.rs lines 29-55) -/

/-- The `DEFAULT_TIMEOUT` constant (src/downloader.rs line 13): 86400 seconds. -/
def DEFAULT_TIMEOUT : Nat := 86400

/-- The `INFINITE_TIMEOUT` constant (src/downloader.rs line 14): 365 days in seconds. -/
def INFINITE_TIMEOUT : Nat := 86400 * 365

/-- The `CurseModFileInfo` struct of `src/model.rs`. -/
structure CurseModFileInfo where
  md5 : String
  sha256 : String
  size : Nat
  download_url : String
deriving DecidableEq

/-- A response of `reqwest::blocking::get`: the `content-type` header (if
present) and the body bytes. -/
structure HttpResponse where
  contentType : Option String
  body : List Nat
deriving DecidableEq

/-- Environment of `request_mod_file_info`: the network
(`reqwest::blocking::get`), the hash renderers (`md5::compute` and
`Sha256::digest` formatted as lowercase hex), the serde_json
serialization of `CurseModFileInfo`, and the two clock readings used by
the underlying `get_or_put` call. -/
structure InfoEnv (ε : Type) where
  netGet : String → Except ε HttpResponse
  md5hex : List Nat → String
  sha256hex : List Nat → String
  toJson : CurseModFileInfo → String
  fromJson : String → Except (AErr ε) CurseModFileInfo
  tRead : Nat
  tMiss : Nat

/-- The host rewrite at src/downloader.rs lines 32-35: an
`edge.forgecdn.net` host is replaced by `media.forgecdn.net` before the
URL is used for caching or fetching ("Edge URL don't work"). -/
def normalizeHost (u : UrlM) : UrlM :=
  if u.host = "edge.forgecdn.net".toList then
    { u with host := "media.forgecdn.net".toList }
  else u

/-- The cache key computed by `request_mod_file_info` before caching or
fetching: the normalized URL's serialization (`download_url.as_str()`). -/
def modFileInfoKey (s : String) : Option String :=
  (parseUrl s.toList).map (fun u => (urlToString (normalizeHost u)).asString)

/-- The compute closure of `request_mod_file_info` (src/downloader.rs
lines 40-53): fetch the (already normalized) URL, fail on a missing
content-type header, fail with a "Miscomputed URL" message on
`application/xml`, otherwise hash the body and serialize the
`CurseModFileInfo` to JSON. -/
def infoCompute (env : InfoEnv ε) (key : String) : Except (AErr ε) String :=
  match env.netGet key with
  | .error e => .error (.net e)
  | .ok resp =>
    match resp.contentType with
    | none => .error (.message "Reading content-type")
    | some ct =>
      if ct = "application/xml" then
        .error (.message ("Miscomputed URL! " ++ key ++ " returned XML"))
      else
        .ok (env.toJson
          { md5 := env.md5hex resp.body, sha256 := env.sha256hex resp.body,
            size := resp.body.length, download_url := key })

/-- Model of `Downloader::request_mod_file_info` (src/downloader.rs lines 29-55):
parse the download URL, normalize the `edge.forgecdn.net` host, then ask
`get_or_put` (with `INFINITE_TIMEOUT`) for the JSON-encoded file info,
computing it through `infoCompute` on a miss, and decode the JSON. -/
def request_mod_file_info (env : InfoEnv ε) (table : List Row) (downloadUrl : String) :
    Except (AErr ε) CurseModFileInfo × List Row :=
  match parseUrl downloadUrl.toList with
  | none => (.error (.message "invalid download_url"), table)
  | some u0 =>
    let key := (urlToString (normalizeHost u0)).asString
    let gop := get_or_put table key INFINITE_TIMEOUT env.tRead env.tMiss (infoCompute env key)
    match gop.result with
    | .error e => (.error e, gop.table)
    | .ok json =>
      match env.fromJson json with
      | .error e => (.error e, gop.table)
      | .ok info => (.ok info, gop.table)

theorem parseUrl_forgecdn (hostS : String) (P : String)
    (hh1 : hostS.toList ≠ []) (hh2 : ':' ∉ hostS.toList) (hh3 : '/' ∉ hostS.toList)
    (hh4 : '?' ∉ hostS.toList) (hh5 : '#' ∉ hostS.toList)
    (hP1 : '?' ∉ P.toList) (hP2 : '#' ∉ P.toList)
    (heq : ("https://" ++ hostS ++ "/" ++ P).toList =
      urlToString ⟨"https".toList, hostS.toList, splitSlash P.toList⟩) :
    parseUrl (("https://" ++ hostS ++ "/" ++ P).toList) =
      some ⟨"https".toList, hostS.toList, splitSlash P.toList⟩ := by
  rw [heq]
  refine parseUrl_urlToString "https".toList hostS.toList (splitSlash P.toList)
    (by decide) (by decide) hh1 hh2 hh3 hh4 hh5 ?_ (splitSlash_ne_nil _)
  intro p hp
  refine ⟨splitSlash_no_slash hp, ?_, ?_⟩
  · intro hcon
    exact hP1 (mem_of_mem_splitSlash hp hcon)
  · intro hcon
    exact hP2 (mem_of_mem_splitSlash hp hcon)

/-- C8 (hostname-alias coalescing): for every download URL path `P`
(query- and fragment-free, the only shape of CDN download URLs), the
`edge.forgecdn.net` and `media.forgecdn.net` variants are normalized to
the same cache key — the `media.forgecdn.net` form — before caching or
fetching, and `request_mod_file_info` behaves identically on the two
variants (same result, including hashes and size, and same store). -/
theorem url_alias_coalescing {ε : Type} (P : String) (env : InfoEnv ε) (table : List Row)
    (hP1 : '?' ∉ P.toList) (hP2 : '#' ∉ P.toList) :
    request_mod_file_info env table ("https://" ++ "edge.forgecdn.net" ++ "/" ++ P) =
      request_mod_file_info env table ("https://" ++ "media.forgecdn.net" ++ "/" ++ P) ∧
    modFileInfoKey ("https://" ++ "edge.forgecdn.net" ++ "/" ++ P) =
      some ("https://" ++ "media.forgecdn.net" ++ "/" ++ P) ∧
    modFileInfoKey ("https://" ++ "media.forgecdn.net" ++ "/" ++ P) =
      some ("https://" ++ "media.forgecdn.net" ++ "/" ++ P) := by
  have heqE : ("https://" ++ "edge.forgecdn.net" ++ "/" ++ P).toList =
      urlToString ⟨"https".toList, "edge.forgecdn.net".toList, splitSlash P.toList⟩ := by
    rw [show ("https://" ++ "edge.forgecdn.net" ++ "/" ++ P).toList =
      ("https://" ++ "edge.forgecdn.net" ++ "/").toList ++ P.toList from
      String.data_append _ _]
    simp only [urlToString]
    rw [joinSlash_splitSlash]
    rfl
  have heqM : ("https://" ++ "media.forgecdn.net" ++ "/" ++ P).toList =
      urlToString ⟨"https".toList, "media.forgecdn.net".toList, splitSlash P.toList⟩ := by
    rw [show ("https://" ++ "media.forgecdn.net" ++ "/" ++ P).toList =
      ("https://" ++ "media.forgecdn.net" ++ "/").toList ++ P.toList from
      String.data_append _ _]
    simp only [urlToString]
    rw [joinSlash_splitSlash]
    rfl
  have hpE := parseUrl_forgecdn "edge.forgecdn.net" P (by decide) (by decide) (by decide)
    (by decide) (by decide) hP1 hP2 heqE
  have hpM := parseUrl_forgecdn "media.forgecdn.net" P (by decide) (by decide) (by decide)
    (by decide) (by decide) hP1 hP2 heqM
  have hnE : normalizeHost ⟨"https".toList, "edge.forgecdn.net".toList, splitSlash P.toList⟩ =
      ⟨"https".toList, "media.forgecdn.net".toList, splitSlash P.toList⟩ := by
    rw [normalizeHost, if_pos rfl]
  have hnM : normalizeHost ⟨"https".toList, "media.forgecdn.net".toList, splitSlash P.toList⟩ =
      ⟨"https".toList, "media.forgecdn.net".toList, splitSlash P.toList⟩ := by
    rw [normalizeHost,
      if_neg (show ¬("media.forgecdn.net".toList = "edge.forgecdn.net".toList) by decide)]
  have hkey : (urlToString
      ⟨"https".toList, "media.forgecdn.net".toList, splitSlash P.toList⟩).asString =
      "https://" ++ "media.forgecdn.net" ++ "/" ++ P := by
    rw [← heqM]
    rfl
  refine ⟨?_, ?_, ?_⟩
  · simp only [request_mod_file_info, hpE, hpM, hnE, hnM]
  · simp only [modFileInfoKey, hpE, Option.map_some', hnE, hkey]
  · simp only [modFileInfoKey, hpM, Option.map_some', hnM, hkey]

/-- A concrete environment used to instantiate the fetch-layer theorems. -/
def c8Env : InfoEnv Unit where
  netGet := fun _ => Except.ok { contentType := some "application/java-archive", body := [1, 2, 3] }
  md5hex := fun _ => "m"
  sha256hex := fun _ => "s"
  toJson := fun _ => "j"
  fromJson := fun _ => Except.error (AErr.message "nope")
  tRead := 100000000
  tMiss := 100000001

theorem url_alias_coalescing_witness :
    request_mod_file_info c8Env [] ("https://" ++ "edge.forgecdn.net" ++ "/" ++ "files/1/2/a.jar") =
      request_mod_file_info c8Env []
        ("https://" ++ "media.forgecdn.net" ++ "/" ++ "files/1/2/a.jar") ∧
    modFileInfoKey ("https://" ++ "edge.forgecdn.net" ++ "/" ++ "files/1/2/a.jar") =
      some ("https://" ++ "media.forgecdn.net" ++ "/" ++ "files/1/2/a.jar") ∧
    modFileInfoKey ("https://" ++ "media.forgecdn.net" ++ "/" ++ "files/1/2/a.jar") =
      some ("https://" ++ "media.forgecdn.net" ++ "/" ++ "files/1/2/a.jar") :=
  url_alias_coalescing "files/1/2/a.jar" c8Env [] (by decide) (by decide)

/-! ### URL re-encoding: encode_url (src/downloader.rs lines 98-118) -/

/-- The `CurseModFile` struct of `src/model.rs`. -/
structure CurseModFile where
  id : Nat
  file_name : String
  file_date : String
  download_url : String
  game_version : List String
deriving DecidableEq

/-- Uppercase hexadecimal digit, as emitted by `urlencoding::encode`. -/
def hexDigit (n : Nat) : Char :=
  "0123456789ABCDEF".toList.getD n '0'

/-- The UTF-8 bytes of a character. -/
def utf8Bytes (c : Char) : List Nat :=
  let n := c.toNat
  if n < 128 then [n]
  else if n < 2048 then [192 + n / 64, 128 + n % 64]
  else if n < 65536 then [224 + n / 4096, 128 + (n / 64) % 64, 128 + n % 64]
  else [240 + n / 262144, 128 + (n / 4096) % 64, 128 + (n / 64) % 64, 128 + n % 64]

/-- The characters `urlencoding::encode` passes through unescaped:
ASCII alphanumerics and `-`, `.`, `_`, `~` (note that `+` is *not* safe
and is percent-encoded, as the source comment at src/downloader.rs
line 80 requires). -/
def isUrlSafe (c : Char) : Bool :=
  c.isAlphanum || c = '-' || c = '.' || c = '_' || c = '~'

/-- Model of `urlencoding::encode`: safe characters kept, every other
character's UTF-8 bytes percent-encoded with uppercase hex. -/
def urlencode (s : List Char) : List Char :=
  s.flatMap (fun c =>
    if isUrlSafe c then [c]
    else (utf8Bytes c).flatMap (fun b => ['%', hexDigit (b / 16), hexDigit (b % 16)]))

/-- The value of a hexadecimal digit character. -/
def hexVal (c : Char) : Option Nat :=
  if '0' ≤ c ∧ c ≤ '9' then some (c.toNat - '0'.toNat)
  else if 'a' ≤ c ∧ c ≤ 'f' then some (c.toNat - 'a'.toNat + 10)
  else if 'A' ≤ c ∧ c ≤ 'F' then some (c.toNat - 'A'.toNat + 10)
  else none

/-- Model of `urlencoding::decode` at byte level: `%XX` sequences with
valid hex digits become the denoted byte, everything else is kept
(the UTF-8 re-validation of the decoded bytes is elided; its failure
aborts the program through `unwrap` outside the modelled paths). -/
def urldecode : List Char → List Char
  | [] => []
  | '%' :: a :: b :: rest =>
    match hexVal a, hexVal b with
    | some x, some y => Char.ofNat (16 * x + y) :: urldecode rest
    | _, _ => '%' :: urldecode (a :: b :: rest)
  | c :: rest => c :: urldecode rest

/-- Model of `PathSegmentsMut::pop` of the `url` crate: truncate the path at its
last `'/'`, keeping the leading slash — the final segment is dropped,
and a single-segment path becomes the single empty segment (path `/`). -/
def popSegment (segs : List (List Char)) : List (List Char) :=
  if segs.length ≤ 1 then [[]] else segs.dropLast

/-- Model of `Downloader::encode_url` (src/downloader.rs lines 98-118): parse the
download URL, take the final path segment, decode then re-encode it, pop
the final segment off a copy of the URL, and re-parse
`format!("{}/{}", base_url.as_str(), encoded_filename)`; all other
fields are kept (`..file`).  `none` models the `unwrap` panics. -/
def encode_url (file : CurseModFile) : Option CurseModFile :=
  match parseUrl file.download_url.toList with
  | none => none
  | some url =>
    match url.segments.getLast? with
    | none => none
    | some filename =>
      let encoded := urlencode (urldecode filename)
      let base : UrlM := { url with segments := popSegment url.segments }
      match parseUrl (urlToString base ++ '/' :: encoded) with
      | none => none
      | some fixed => some { file with download_url := (urlToString fixed).asString }

/-- The property that `new` differs from `old` at most in the final path segment: the
two strings share a common prefix after which neither contains a slash. -/
def lastSegmentOnlyDiff (old new : List Char) : Bool :=
  (List.range (old.length + 1)).any (fun k =>
    old.take k == new.take k && !((old.drop k).contains '/') && !((new.drop k).contains '/'))

/-! #### urlencode character lemmas -/

theorem getD_mem_or {l : List α} {n : Nat} {d : α} : l.getD n d ∈ l ∨ l.getD n d = d := by
  induction l generalizing n with
  | nil => right; rfl
  | cons a t ih =>
    cases n with
    | zero => left; exact List.mem_cons_self a t
    | succ m =>
      rcases ih (n := m) with h | h
      · left; exact List.mem_cons_of_mem a h
      · right; exact h

theorem hexDigit_ne {c0 : Char} (hc : c0 ∉ "0123456789ABCDEF".toList) (hd : c0 ≠ '0') :
    ∀ n, hexDigit n ≠ c0 := by
  intro n hcon
  rcases getD_mem_or (l := "0123456789ABCDEF".toList) (n := n) (d := '0') with h | h
  · exact hc (hcon ▸ h)
  · exact hd (hcon ▸ h)

theorem urlencode_not_mem {s : List Char} {c0 : Char}
    (h1 : isUrlSafe c0 = false) (h2 : c0 ≠ '%')
    (h3 : c0 ∉ "0123456789ABCDEF".toList) (h4 : c0 ≠ '0') :
    c0 ∉ urlencode s := by
  intro hmem
  rw [urlencode] at hmem
  rcases List.mem_flatMap.mp hmem with ⟨c, _, hc⟩
  by_cases hsafe : isUrlSafe c = true
  · rw [if_pos hsafe] at hc
    rcases List.mem_singleton.mp hc with rfl
    rw [hsafe] at h1
    exact absurd h1 (by simp)
  · rw [if_neg hsafe] at hc
    rcases List.mem_flatMap.mp hc with ⟨b, _, hb⟩
    rcases List.mem_cons.mp hb with rfl | hb2
    · exact h2 rfl
    rcases List.mem_cons.mp hb2 with rfl | hb3
    · exact hexDigit_ne h3 h4 _ rfl
    rcases List.mem_singleton.mp hb3 with rfl
    exact hexDigit_ne h3 h4 _ rfl

theorem slash_not_mem_urlencode (s : List Char) : '/' ∉ urlencode s :=
  urlencode_not_mem (by decide) (by decide) (by decide) (by decide)

theorem qmark_not_mem_urlencode (s : List Char) : '?' ∉ urlencode s :=
  urlencode_not_mem (by decide) (by decide) (by decide) (by decide)

theorem hash_not_mem_urlencode (s : List Char) : '#' ∉ urlencode s :=
  urlencode_not_mem (by decide) (by decide) (by decide) (by decide)

theorem lastSegDiff_of_append {p a b : List Char} (ha : '/' ∉ a) (hb : '/' ∉ b) :
    lastSegmentOnlyDiff (p ++ a) (p ++ b) = true := by
  rw [lastSegmentOnlyDiff, List.any_eq_true]
  refine ⟨p.length, List.mem_range.mpr (by rw [List.length_append]; omega), ?_⟩
  rw [List.take_left, List.take_left, List.drop_left, List.drop_left]
  simp only [beq_self_eq_true, Bool.true_and, Bool.and_eq_true, Bool.not_eq_true']
  constructor <;> simpa

theorem popSegment_ne_nil (segs : List (List Char)) : popSegment segs ≠ [] := by
  rw [popSegment]
  split
  · simp
  · intro hcon
    have hl := congrArg List.length hcon
    simp only [List.length_dropLast, List.length_nil] at hl
    omega

/-- C10 amended: whenever the download URL parses, `encode_url` succeeds
and returns a record agreeing with its input on `id`, `file_name`,
`file_date` and `game_version`; and when the URL's path has at least two
segments, the new `download_url` differs from the old at most in its
final path segment.  (A single-segment path gains an empty segment — a
double slash — because popping the only segment leaves the path `/`;
see the counterexample.) -/
theorem encode_url_frame (file : CurseModFile) (sch host : List Char)
    (segs : List (List Char))
    (hp : parseUrl file.download_url.toList = some ⟨sch, host, segs⟩) :
    (∃ res, encode_url file = some res ∧
      res.id = file.id ∧ res.file_name = file.file_name ∧
      res.file_date = file.file_date ∧ res.game_version = file.game_version) ∧
    (2 ≤ segs.length → ∀ res, encode_url file = some res →
      lastSegmentOnlyDiff file.download_url.toList res.download_url.toList = true) := by
  obtain ⟨hs1, hs2, hh1, hh2, hh3, hh4, hh5, hg, hne⟩ := parseUrl_clean hp
  have hg' : ∀ p ∈ segs, '/' ∉ p ∧ '?' ∉ p ∧ '#' ∉ p := hg
  have hne' : segs ≠ [] := hne
  have hLast : segs.getLast? = some (segs.getLast hne') := List.getLast?_eq_getLast segs hne'
  have hPSne : popSegment segs ≠ [] := popSegment_ne_nil segs
  have hPSclean : ∀ p ∈ popSegment segs ++ [urlencode (urldecode (segs.getLast hne'))],
      '/' ∉ p ∧ '?' ∉ p ∧ '#' ∉ p := by
    intro p hp'
    rcases List.mem_append.mp hp' with hmem | hmem
    · rw [popSegment] at hmem
      split at hmem
      · rcases List.mem_singleton.mp hmem with rfl
        exact ⟨by simp, by simp, by simp⟩
      · exact hg' p (List.mem_of_mem_dropLast hmem)
    · rcases List.mem_singleton.mp hmem with rfl
      exact ⟨slash_not_mem_urlencode _, qmark_not_mem_urlencode _, hash_not_mem_urlencode _⟩
  have hcat : urlToString ⟨sch, host, popSegment segs⟩ ++
        '/' :: urlencode (urldecode (segs.getLast hne'))
      = urlToString ⟨sch, host,
          popSegment segs ++ [urlencode (urldecode (segs.getLast hne'))]⟩ := by
    simp only [urlToString]
    rw [joinSlash_concat _ hPSne]
    simp [List.append_assoc]
  have hre : parseUrl (urlToString ⟨sch, host, popSegment segs⟩ ++
        '/' :: urlencode (urldecode (segs.getLast hne')))
      = some ⟨sch, host, popSegment segs ++ [urlencode (urldecode (segs.getLast hne'))]⟩ := by
    rw [hcat]
    exact parseUrl_urlToString sch host _ hs1 hs2 hh1 hh2 hh3 hh4 hh5 hPSclean (by simp)
  have hres : encode_url file = some { file with download_url :=
      (urlToString ⟨sch, host,
        popSegment segs ++ [urlencode (urldecode (segs.getLast hne'))]⟩).asString } := by
    simp only [encode_url, hp, hLast, hre]
  refine ⟨⟨_, hres, rfl, rfl, rfl, rfl⟩, ?_⟩
  intro hlen res hres2
  rw [hres] at hres2
  obtain rfl := Option.some.inj hres2
  have hpop : popSegment segs = segs.dropLast := by
    rw [popSegment, if_neg (by omega)]
  have hdLne : segs.dropLast ≠ [] := by
    intro hcon
    have hl := congrArg List.length hcon
    simp only [List.length_dropLast, List.length_nil] at hl
    omega
  have hsegs : segs.dropLast ++ [segs.getLast hne'] = segs :=
    List.dropLast_append_getLast hne'
  have hj : joinSlash segs = joinSlash segs.dropLast ++ '/' :: segs.getLast hne' := by
    conv_lhs => rw [← hsegs]
    exact joinSlash_concat _ hdLne
  have hold : file.download_url.toList = urlToString ⟨sch, host, segs⟩ :=
    parseUrl_eq_toString hp hlen
  have holdp : file.download_url.toList
      = (sch ++ ':' :: '/' :: '/' :: (host ++ '/' :: (joinSlash segs.dropLast ++ ['/'])))
        ++ segs.getLast hne' := by
    rw [hold]
    simp only [urlToString, hj]
    simp [List.append_assoc]
  have hnewp : ({ file with download_url :=
      (urlToString ⟨sch, host,
        popSegment segs ++ [urlencode (urldecode (segs.getLast hne'))]⟩).asString }
        : CurseModFile).download_url.toList
      = (sch ++ ':' :: '/' :: '/' :: (host ++ '/' :: (joinSlash segs.dropLast ++ ['/'])))
        ++ urlencode (urldecode (segs.getLast hne')) := by
    show urlToString ⟨sch, host,
      popSegment segs ++ [urlencode (urldecode (segs.getLast hne'))]⟩ = _
    rw [hpop]
    simp only [urlToString]
    rw [joinSlash_concat _ hdLne]
    simp [List.append_assoc]
  rw [holdp, hnewp]
  exact lastSegDiff_of_append (hg' _ (List.getLast_mem hne')).1 (slash_not_mem_urlencode _)

/-- C10 as stated, formalized: whenever `encode_url` returns `Ok`, the
result agrees with the input on `id`, `file_name`, `file_date` and
`game_version`, and its `download_url` differs from the input's at most
in the final path segment. -/
def encodeUrlKeepsAllButLastSegment : Prop :=
  ∀ (file res : CurseModFile), encode_url file = some res →
    res.id = file.id ∧ res.file_name = file.file_name ∧ res.file_date = file.file_date ∧
    res.game_version = file.game_version ∧
    lastSegmentOnlyDiff file.download_url.toList res.download_url.toList = true

/-- The single-segment download URL used as the C10 counterexample. -/
def c10FileSingle : CurseModFile :=
  { id := 1, file_name := "a.jar", file_date := "d",
    download_url := "https://media.forgecdn.net/a.jar", game_version := [] }

/-- C10 counterexample: on a download URL whose path has a single
segment, popping that segment leaves the path `/`, and
`format!("{}/{}", base, encoded)` produces a double slash: the result
`https://media.forgecdn.net//a.jar` differs from
`https://media.forgecdn.net/a.jar` by more than its final path segment
(an empty segment appears before it). -/
theorem encode_url_single_segment_cex : ¬ encodeUrlKeepsAllButLastSegment := by
  intro h
  have h1 := h c10FileSingle
    { id := 1, file_name := "a.jar", file_date := "d",
      download_url := "https://media.forgecdn.net//a.jar", game_version := [] }
    (by decide)
  exact absurd h1.2.2.2.2 (by decide)

/-- The multi-segment download URL used as the C10 witness. -/
def c10FileMulti : CurseModFile :=
  { id := 2, file_name := "b.jar", file_date := "d",
    download_url := "https://media.forgecdn.net/files/1/2/b.jar", game_version := ["1.12.2"] }

theorem encode_url_frame_witness :
    (∃ res, encode_url c10FileMulti = some res ∧
      res.id = c10FileMulti.id ∧ res.file_name = c10FileMulti.file_name ∧
      res.file_date = c10FileMulti.file_date ∧
      res.game_version = c10FileMulti.game_version) ∧
    (2 ≤ (["files".toList, "1".toList, "2".toList, "b.jar".toList] :
        List (List Char)).length →
      ∀ res, encode_url c10FileMulti = some res →
      lastSegmentOnlyDiff c10FileMulti.download_url.toList
        res.download_url.toList = true) :=
  encode_url_frame c10FileMulti "https".toList "media.forgecdn.net".toList
    ["files".toList, "1".toList, "2".toList, "b.jar".toList] (by decide)

/-! ### Paginated listing fetch: request_mod_files (src/downloader.rs lines 59-86) -/

/-- The pagination metadata of a catalog response.  The struct
declaration is not under src/; it is modelled from its use at
src/downloader.rs lines 71-73 and the spec ("pagination responses
report a result count per page"). -/
structure Pagination where
  result_count : Nat
deriving DecidableEq

/-- The envelope of catalog responses: a `data` payload and optional
pagination metadata.  The struct declaration is not under src/; it is
modelled from its uses in src/downloader.rs (`result.data`,
`result.pagination`). -/
structure CurseWrapper (α : Type) where
  data : α
  pagination : Option Pagination
deriving DecidableEq

/-- The page URL built at src/downloader.rs lines 63-64:
`BASE_URL.join("/v1/mods/{pid}/files?gameVersion={gv}&pageSize=50&index={i}")`.
Joining an absolute-path reference onto `https://api.curseforge.com`
replaces path and query, and `get_with_builder` keys the cache by
`request.url().as_str()`, this same serialization. -/
def pageUrl (projectId : Nat) (gameVersion : String) (index : Nat) : String :=
  "https://api.curseforge.com/v1/mods/" ++ toString projectId ++
    "/files?gameVersion=" ++ gameVersion ++ "&pageSize=50&index=" ++ toString index

/-- Environment of `request_mod_files`: the network text fetch performed
by `get_with_builder`'s compute closure (`client.execute(request)?.text()`),
the serde_json decoding of a page, and the clock readings of the
underlying `get_or_put` calls. -/
structure FilesEnv (ε : Type) where
  net : String → Except (AErr ε) String
  decode : String → Except (AErr ε) (CurseWrapper (List CurseModFile))
  tRead : Nat
  tMiss : Nat

/-- Model of `Downloader::get` via `get_with_builder` (src/downloader.rs lines
136-148) as used by the listing loop: a cache-aware fetch through
`Database::get_or_put`, keyed by the request URL, with the default 24h
TTL (`self.cache_timeout = DEFAULT_TIMEOUT`). -/
def dlGet (env : FilesEnv ε) (table : List Row) (url : String) : GopResult ε :=
  get_or_put table url DEFAULT_TIMEOUT env.tRead env.tMiss (env.net url)

/-- The collect step `files.into_iter().map(Downloader::encode_url).collect::<Result<_>>()`
at src/downloader.rs lines 82-85 (the `unwrap` panics inside
`encode_url` are modelled as an error). -/
def encodeFiles (files : List CurseModFile) : Except (AErr ε) (List CurseModFile) :=
  match files.mapM encode_url with
  | some l => .ok l
  | none => .error (.message "encode_url failed")

/-- The loop of `request_mod_files` (src/downloader.rs lines 60-76),
with explicit fuel (the source loops until a page reports zero results;
fuel exhaustion is a modelling artifact reported as a distinct error).
Besides the result and the evolving table, the model records the list of
cache keys requested, in order.  Each iteration fetches the page for the
current index through the cache, decodes it, appends its `data`, errors
if pagination is absent, and stops after the first page whose
`result_count` is zero. -/
def requestModFilesLoop (env : FilesEnv ε) (projectId : Nat) (gameVersion : String) :
    Nat → List Row → List CurseModFile → Nat → List String →
    Except (AErr ε) (List CurseModFile) × List Row × List String
  | 0, table, _, _, keys => (.error (.message "fuel exhausted"), table, keys)
  | fuel + 1, table, acc, index, keys =>
    let url := pageUrl projectId gameVersion index
    let g := dlGet env table url
    match g.result with
    | .error e =>
      (.error (.context ("Fetching files for project id " ++ toString projectId ++
        " at index " ++ toString index) e), g.table, keys ++ [url])
    | .ok data =>
      match env.decode data with
      | .error e =>
        (.error (.context ("Parsing files list as JSON for project id " ++
          toString projectId) e), g.table, keys ++ [url])
      | .ok w =>
        match w.pagination with
        | none =>
          (.error (.message ("No pagination in file listing for project id " ++
            toString projectId ++ "!")), g.table, keys ++ [url])
        | some pageInfo =>
          if pageInfo.result_count == 0 then
            (.ok (acc ++ w.data), g.table, keys ++ [url])
          else
            requestModFilesLoop env projectId gameVersion fuel g.table (acc ++ w.data)
              (index + 50) (keys ++ [url])

/-- Model of `Downloader::request_mod_files` (src/downloader.rs lines 59-86):
run the paginated loop from index 0, then re-encode every collected
download URL. -/
def request_mod_files (env : FilesEnv ε) (fuel : Nat) (table : List Row)
    (projectId : Nat) (gameVersion : String) :
    Except (AErr ε) (List CurseModFile) × List Row × List String :=
  match requestModFilesLoop env projectId gameVersion fuel table [] 0 [] with
  | (.error e, t, ks) => (.error e, t, ks)
  | (.ok files, t, ks) => (encodeFiles files, t, ks)

/-- The list `[s, s+1, ..., s+c-1]`. -/
def idxFrom : Nat → Nat → List Nat
  | _, 0 => []
  | s, c + 1 => s :: idxFrom (s + 1) c

theorem rowFor_insertOrReplace_none {table : List Row} {r : Row} {url' : String}
    (h : rowFor table url' = none) (hne : r.url ≠ url') :
    rowFor (insertOrReplace table r) url' = none := by
  rw [rowFor, insertOrReplace, find?_append_none]
  · rw [List.find?_cons_of_neg _ (by simp [hne]), List.find?_nil]
  · rw [List.find?_eq_none]
    intro x hx
    rw [rowFor, List.find?_eq_none] at h
    exact h x (List.mem_filter.mp hx).1

theorem requestModFilesLoop_spec {ε : Type} (env : FilesEnv ε) (pid : Nat) (gv : String)
    (n : Nat) (body : Nat → String) (w : Nat → CurseWrapper (List CurseModFile))
    (pg : Nat → Pagination)
    (hT : DEFAULT_TIMEOUT ≤ env.tRead)
    (hNet : ∀ k, k ≤ n → env.net (pageUrl pid gv (50 * k)) = .ok (body k))
    (hDec : ∀ k, k ≤ n → env.decode (body k) = .ok (w k))
    (hPag : ∀ k, k ≤ n → (w k).pagination = some (pg k))
    (hNZ : ∀ k, k < n → (pg k).result_count ≠ 0)
    (hZ : (pg n).result_count = 0)
    (hDist : ∀ i, i ≤ n → ∀ j, j ≤ n →
      pageUrl pid gv (50 * i) = pageUrl pid gv (50 * j) → i = j) :
    ∀ fuel k table acc keys, k ≤ n → n - k < fuel →
      (∀ i, k ≤ i → i ≤ n → rowFor table (pageUrl pid gv (50 * i)) = none) →
      (requestModFilesLoop env pid gv fuel table acc (50 * k) keys).1 =
        .ok (acc ++ (idxFrom k (n + 1 - k)).flatMap (fun i => (w i).data)) ∧
      (requestModFilesLoop env pid gv fuel table acc (50 * k) keys).2.2 =
        keys ++ (idxFrom k (n + 1 - k)).map (fun i => pageUrl pid gv (50 * i)) := by
  intro fuel
  induction fuel with
  | zero =>
    intro k table acc keys hk hfuel htable
    omega
  | succ f ih =>
    intro k table acc keys hk hfuel htable
    have hg : dlGet env table (pageUrl pid gv (50 * k)) =
        { result := .ok (body k),
          table := insertOrReplace table
            { url := pageUrl pid gv (50 * k), result := body k, downloaded := env.tMiss },
          computeCalls := 1 } := by
      rw [dlGet, hNet k hk]
      unfold get_or_put
      rw [if_neg (by omega), freshHit_of_rowFor_none (htable k (le_refl k) hk)]
    simp only [requestModFilesLoop, hg, hDec k hk, hPag k hk]
    by_cases hkn : k = n
    · subst hkn
      rw [if_pos (by simp [hZ])]
      rw [show k + 1 - k = 1 from by omega]
      constructor
      · show Except.ok (acc ++ (w k).data) = _
        simp [idxFrom]
      · show keys ++ [pageUrl pid gv (50 * k)] = _
        simp [idxFrom]
    · have hkltn : k < n := by omega
      rw [if_neg (by simpa using hNZ k hkltn)]
      have htable' : ∀ i, k + 1 ≤ i → i ≤ n →
          rowFor (insertOrReplace table
            { url := pageUrl pid gv (50 * k), result := body k, downloaded := env.tMiss })
            (pageUrl pid gv (50 * i)) = none := by
        intro i h1i h2i
        refine rowFor_insertOrReplace_none (htable i (by omega) h2i) ?_
        intro hcon
        have := hDist k hk i h2i hcon
        omega
      have hih := ih (k + 1) _ (acc ++ (w k).data) (keys ++ [pageUrl pid gv (50 * k)])
        (by omega) (by omega) htable'
      rw [show 50 * k + 50 = 50 * (k + 1) from by ring]
      constructor
      · rw [hih.1, show n + 1 - (k + 1) = n - k from by omega,
          show n + 1 - k = (n - k) + 1 from by omega]
        simp [idxFrom, List.append_assoc]
      · rw [hih.2, show n + 1 - (k + 1) = n - k from by omega,
          show n + 1 - k = (n - k) + 1 from by omega]
        simp [idxFrom, List.append_assoc]

theorem requestModFilesLoop_noPagination {ε : Type} (env : FilesEnv ε) (pid : Nat)
    (gv : String) (m : Nat) (body : Nat → String)
    (w : Nat → CurseWrapper (List CurseModFile)) (pg : Nat → Pagination)
    (hT : DEFAULT_TIMEOUT ≤ env.tRead)
    (hNet : ∀ k, k ≤ m → env.net (pageUrl pid gv (50 * k)) = .ok (body k))
    (hDec : ∀ k, k ≤ m → env.decode (body k) = .ok (w k))
    (hPag : ∀ k, k < m → (w k).pagination = some (pg k))
    (hNZ : ∀ k, k < m → (pg k).result_count ≠ 0)
    (hNone : (w m).pagination = none)
    (hDist : ∀ i, i ≤ m → ∀ j, j ≤ m →
      pageUrl pid gv (50 * i) = pageUrl pid gv (50 * j) → i = j) :
    ∀ fuel k table acc keys, k ≤ m → m - k < fuel →
      (∀ i, k ≤ i → i ≤ m → rowFor table (pageUrl pid gv (50 * i)) = none) →
      (requestModFilesLoop env pid gv fuel table acc (50 * k) keys).1 =
        .error (.message ("No pagination in file listing for project id " ++
          toString pid ++ "!")) := by
  intro fuel
  induction fuel with
  | zero =>
    intro k table acc keys hk hfuel htable
    omega
  | succ f ih =>
    intro k table acc keys hk hfuel htable
    have hg : dlGet env table (pageUrl pid gv (50 * k)) =
        { result := .ok (body k),
          table := insertOrReplace table
            { url := pageUrl pid gv (50 * k), result := body k, downloaded := env.tMiss },
          computeCalls := 1 } := by
      rw [dlGet, hNet k hk]
      unfold get_or_put
      rw [if_neg (by omega), freshHit_of_rowFor_none (htable k (le_refl k) hk)]
    simp only [requestModFilesLoop, hg, hDec k hk]
    by_cases hkm : k = m
    · subst hkm
      rw [hNone]
    · have hkltm : k < m := by omega
      simp only [hPag k hkltm]
      rw [if_neg (by simpa using hNZ k hkltm)]
      have htable' : ∀ i, k + 1 ≤ i → i ≤ m →
          rowFor (insertOrReplace table
            { url := pageUrl pid gv (50 * k), result := body k, downloaded := env.tMiss })
            (pageUrl pid gv (50 * i)) = none := by
        intro i h1i h2i
        refine rowFor_insertOrReplace_none (htable i (by omega) h2i) ?_
        intro hcon
        have := hDist k hk i h2i hcon
        omega
      rw [show 50 * k + 50 = 50 * (k + 1) from by ring]
      exact ih (k + 1) _ (acc ++ (w k).data) (keys ++ [pageUrl pid gv (50 * k)])
        (by omega) (by omega) htable'

/-- C9 (paginated listing fetch): under a scenario where pages
`0..n` decode with pagination metadata, pages before `n` report nonzero
counts and page `n` reports zero, `request_mod_files` requests exactly
the pages of size 50 at offsets `0, 50, ..., 50n` — each through the
cache-aware `get` keyed by that page's own URL — appends the pages'
results in offset order (then re-encodes the download URLs), and stops
at page `n`; and under a scenario where page `m` decodes without
pagination metadata, it returns the "No pagination" error. -/
theorem paginated_listing_fetch {ε : Type}
    (env : FilesEnv ε) (pid : Nat) (gv : String) (table : List Row) (fuel n : Nat)
    (body : Nat → String) (w : Nat → CurseWrapper (List CurseModFile))
    (pg : Nat → Pagination)
    (hT : DEFAULT_TIMEOUT ≤ env.tRead)
    (hNet : ∀ k, k ≤ n → env.net (pageUrl pid gv (50 * k)) = .ok (body k))
    (hDec : ∀ k, k ≤ n → env.decode (body k) = .ok (w k))
    (hPag : ∀ k, k ≤ n → (w k).pagination = some (pg k))
    (hNZ : ∀ k, k < n → (pg k).result_count ≠ 0)
    (hZ : (pg n).result_count = 0)
    (hDist : ∀ i, i ≤ n → ∀ j, j ≤ n →
      pageUrl pid gv (50 * i) = pageUrl pid gv (50 * j) → i = j)
    (hMiss : ∀ i, i ≤ n → rowFor table (pageUrl pid gv (50 * i)) = none)
    (hFuel : n < fuel)
    (env2 : FilesEnv ε) (pid2 : Nat) (gv2 : String) (table2 : List Row) (fuel2 m : Nat)
    (body2 : Nat → String) (w2 : Nat → CurseWrapper (List CurseModFile))
    (pg2 : Nat → Pagination)
    (hT2 : DEFAULT_TIMEOUT ≤ env2.tRead)
    (hNet2 : ∀ k, k ≤ m → env2.net (pageUrl pid2 gv2 (50 * k)) = .ok (body2 k))
    (hDec2 : ∀ k, k ≤ m → env2.decode (body2 k) = .ok (w2 k))
    (hPag2 : ∀ k, k < m → (w2 k).pagination = some (pg2 k))
    (hNZ2 : ∀ k, k < m → (pg2 k).result_count ≠ 0)
    (hNone2 : (w2 m).pagination = none)
    (hDist2 : ∀ i, i ≤ m → ∀ j, j ≤ m →
      pageUrl pid2 gv2 (50 * i) = pageUrl pid2 gv2 (50 * j) → i = j)
    (hMiss2 : ∀ i, i ≤ m → rowFor table2 (pageUrl pid2 gv2 (50 * i)) = none)
    (hFuel2 : m < fuel2) :
    (request_mod_files env fuel table pid gv).1 =
      encodeFiles ((idxFrom 0 (n + 1)).flatMap (fun i => (w i).data)) ∧
    (request_mod_files env fuel table pid gv).2.2 =
      (idxFrom 0 (n + 1)).map (fun i => pageUrl pid gv (50 * i)) ∧
    (request_mod_files env2 fuel2 table2 pid2 gv2).1 =
      .error (.message ("No pagination in file listing for project id " ++
        toString pid2 ++ "!")) := by
  have hs := requestModFilesLoop_spec env pid gv n body w pg hT hNet hDec hPag hNZ hZ hDist
    fuel 0 table [] [] (Nat.zero_le n) (by omega) (fun i _ h2 => hMiss i h2)
  simp only [Nat.mul_zero, Nat.sub_zero, List.nil_append] at hs
  have hs2 := requestModFilesLoop_noPagination env2 pid2 gv2 m body2 w2 pg2 hT2 hNet2 hDec2
    hPag2 hNZ2 hNone2 hDist2 fuel2 0 table2 [] [] (Nat.zero_le m) (by omega)
    (fun i _ h2 => hMiss2 i h2)
  simp only [Nat.mul_zero] at hs2
  rcases hloop : requestModFilesLoop env pid gv fuel table [] 0 [] with ⟨res, tb, ks⟩
  rw [hloop] at hs
  have h1 : res = .ok ((idxFrom 0 (n + 1)).flatMap (fun i => (w i).data)) := hs.1
  have h2 : ks = (idxFrom 0 (n + 1)).map (fun i => pageUrl pid gv (50 * i)) := hs.2
  rcases hloop2 : requestModFilesLoop env2 pid2 gv2 fuel2 table2 [] 0 [] with ⟨res2, tb2, ks2⟩
  rw [hloop2] at hs2
  have h3 : res2 = .error (.message ("No pagination in file listing for project id " ++
      toString pid2 ++ "!")) := hs2
  subst h1 h2 h3
  refine ⟨?_, ?_, ?_⟩
  · simp only [request_mod_files, hloop]
  · simp only [request_mod_files, hloop]
  · simp only [request_mod_files, hloop2]

/-- Concrete single-page environment for the C9 witness (page 0 reports
zero results). -/
def c9EnvOk : FilesEnv Unit where
  net := fun _ => Except.ok "p0"
  decode := fun _ => Except.ok { data := [], pagination := some { result_count := 0 } }
  tRead := 100000
  tMiss := 100001

/-- Concrete environment for the C9 witness whose page 0 lacks
pagination metadata. -/
def c9EnvNoPag : FilesEnv Unit where
  net := fun _ => Except.ok "q0"
  decode := fun _ => Except.ok { data := [], pagination := none }
  tRead := 100000
  tMiss := 100001

theorem paginated_listing_fetch_witness :
    (request_mod_files c9EnvOk 1 [] 7 "1.12.2").1 = Except.ok [] ∧
    (request_mod_files c9EnvOk 1 [] 7 "1.12.2").2.2 = [pageUrl 7 "1.12.2" 0] ∧
    (request_mod_files c9EnvNoPag 1 [] 7 "1.12.2").1 =
      Except.error (AErr.message ("No pagination in file listing for project id " ++
        toString 7 ++ "!")) := by
  have h := paginated_listing_fetch c9EnvOk 7 "1.12.2" [] 1 0 (fun _ => "p0")
    (fun _ => { data := [], pagination := some { result_count := 0 } })
    (fun _ => { result_count := 0 })
    (by decide) (fun k _ => rfl) (fun k _ => rfl) (fun k _ => rfl)
    (fun k hk => by omega) rfl (fun i _ j _ _ => by omega) (fun i _ => rfl) (by decide)
    c9EnvNoPag 7 "1.12.2" [] 1 0 (fun _ => "q0")
    (fun _ => { data := [], pagination := none }) (fun _ => { result_count := 1 })
    (by decide) (fun k _ => rfl) (fun k _ => rfl) (fun k hk => by omega)
    (fun k hk => by omega) rfl (fun i _ j _ _ => by omega) (fun i _ => rfl) (by decide)
  obtain ⟨h1, h2, h3⟩ := h
  refine ⟨?_, ?_, ?_⟩
  · rw [h1]; rfl
  · rw [h2]; rfl
  · rw [h3]
